import Mathlib

/-!
Shallow embedding of ddbug's `src/file/mod.rs` (the normalization and
structural-diff support code), together with theorems checking the
specification's claims about it.

Byte strings (`&[u8]` in the source) are modelled as `List Nat`; machine
integers (`u64`, `usize`) as `Nat` (no arithmetic in this file can overflow a
`u64` in the source on the inputs considered, and the source's additions are
modelled as plain additions).  Mutation is modelled by explicit state passing:
functions taking `&mut` arguments return the updated value.

The shapes of `Range`, `RangeList`, `Unit`, `Function`, `Variable` and `Type`
live in repository files that are not part of the given sources; they are
modelled from the spec (section 3, "DATA MODEL") and marked as such below.
Everything in `file/mod.rs` itself is translated directly from that source.
-/

namespace Ddbug

/-- Byte strings (`&[u8]`). -/
abbrev ByteStr := List Nat

/-- Embeds `enum SymbolType { Variable, Function }`. -/
inductive SymbolType where
  | Variable
  | Function
deriving DecidableEq, Repr, Inhabited

/-- Embeds `struct Symbol<'input> { name, ty, address, size }`. -/
structure Symbol where
  name : Option ByteStr
  ty : SymbolType
  address : Nat
  size : Nat
deriving DecidableEq, Repr

instance : Inhabited Symbol := ⟨⟨none, SymbolType.Variable, 0, 0⟩⟩

/-- Modelled from the spec: `Range { begin, end }`, a half-open interval
`[begin, end)` (`range.rs` is not among the given sources).  The fields are
named `rbegin`/`rend` because `end` is a Lean keyword. -/
structure Range where
  rbegin : Nat
  rend : Nat
deriving DecidableEq, Repr, Inhabited

/-- Modelled from the spec: ranges are ordered lexicographically by
`(begin, end)` (the derived `Ord` of the source's `Range`). -/
def rangeLE (a b : Range) : Prop :=
  a.rbegin < b.rbegin ∨ (a.rbegin = b.rbegin ∧ a.rend ≤ b.rend)

instance rangeLE.decRel : DecidableRel rangeLE := fun a b => by
  unfold rangeLE
  infer_instance

instance rangeLE.total : IsTotal Range rangeLE :=
  ⟨by intro a b; unfold rangeLE; omega⟩

instance rangeLE.trans : IsTrans Range rangeLE :=
  ⟨by intro a b c; unfold rangeLE; omega⟩

/-- Modelled from the spec: `RangeList::sort`.  A `RangeList` is an
insertion-ordered sequence of `Range` (modelled as `List Range`); `sort`
sorts it (a stable sort, modelled by insertion sort). -/
def sortRanges (l : List Range) : List Range :=
  List.insertionSort rangeLE l

/-- Modelled from the spec: the fields of `Function` the core reads and
writes: `name`, `linkage_name`, `low_pc`, `high_pc`, `size`, and the mutable
`symbol_name` stamped by normalization (`function.rs` is not among the given
sources). -/
structure Function where
  name : Option ByteStr
  linkage_name : Option ByteStr
  low_pc : Option Nat
  high_pc : Option Nat
  size : Option Nat
  symbol_name : Option ByteStr
deriving DecidableEq, Repr

instance : Inhabited Function := ⟨⟨none, none, none, none, none, none⟩⟩

/-- Modelled from the spec: the fields of `Variable` the core reads and
writes (`variable.rs` is not among the given sources). -/
structure Variable where
  name : Option ByteStr
  linkage_name : Option ByteStr
  address : Option Nat
  size : Option Nat
  symbol_name : Option ByteStr
deriving DecidableEq, Repr

instance : Inhabited Variable := ⟨⟨none, none, none, none, none⟩⟩

/-- Modelled from the spec: a type entity; the core only moves these around
by offset, so only a name field is modelled. -/
structure Typ where
  name : Option ByteStr
deriving DecidableEq, Repr

/-- Modelled from the spec: `Unit { name, ranges, functions, variables,
types }` (`unit.rs` is not among the given sources).  The `functions`,
`variables` (here `vars`, since `variables` is a Lean keyword) and `types` maps (`BTreeMap` keyed by offset) are modelled as
association lists in iteration order; `normalize` inserts with strictly
increasing keys, so appending coincides with `BTreeMap` insertion here. -/
structure Unit where
  name : Option ByteStr
  ranges : List Range
  functions : List (Nat × Function)
  vars : List (Nat × Variable)
  types : List (Nat × Typ)
deriving DecidableEq, Repr

instance : Inhabited Unit := ⟨⟨none, [], [], [], []⟩⟩

/-- Embeds `struct CodeRegion { machine, region }`; the `panopticon` machine
and region are external and modelled as plain numbers. -/
structure CodeRegion where
  machine : Nat
  region : Nat
deriving DecidableEq, Repr

/-- Embeds `struct Section<'input> { name, address, size }`. -/
structure Section where
  name : Option ByteStr
  address : Option Nat
  size : Nat
deriving DecidableEq, Repr

/-- Embeds `struct File<'a, 'input> { path, code, sections, symbols, units }`. -/
structure File where
  path : String
  code : Option CodeRegion
  sections : List Section
  symbols : List Symbol
  units : List Unit
deriving DecidableEq, Repr

/-- Embeds `Section::address`: `self.address.map(|address| Range { begin:
address, end: address + self.size })`.  Named `addressRange` because the
field projection already uses the name `address`. -/
def Section.addressRange (s : Section) : Option Range :=
  s.address.map fun address => ⟨address, address + s.size⟩

/-- Embeds `Option::or` from the standard library (`a.or(b)`). -/
def optOr (a b : Option ByteStr) : Option ByteStr :=
  match a with
  | some x => some x
  | none => b

/-- Embeds the standard library's `slice::binary_search_by` comparing by
`address`, on a fuelled worker over index bounds `[left, right)` with
`mid = left + (right - left) / 2`.  The interval halves each step, so fuel
`symbols.length` suffices (proved in the completeness lemma below). -/
def bsearchGo (symbols : List Symbol) (address : Nat) :
    Nat → Nat → Nat → Option Nat
  | 0, _, _ => none
  | fuel + 1, left, right =>
    if left < right then
      if (symbols.getD (left + (right - left) / 2) default).address < address then
        bsearchGo symbols address fuel (left + (right - left) / 2 + 1) right
      else if address < (symbols.getD (left + (right - left) / 2) default).address then
        bsearchGo symbols address fuel left (left + (right - left) / 2)
      else some (left + (right - left) / 2)
    else none

/-- Embeds `symbols.binary_search_by(|x| x.address.cmp(&address))`, with `Err`
collapsed to `none` (the source only uses the `Ok` index). -/
def binarySearchByAddress (symbols : List Symbol) (address : Nat) : Option Nat :=
  bsearchGo symbols address symbols.length 0 symbols.length

/-- Embeds the rewind loop of `File::get_symbol`:
`while index > 0 && symbols[index - 1].address == address { index -= 1 }`. -/
def rewind (symbols : List Symbol) (address : Nat) : Nat → Nat
  | 0 => 0
  | i + 1 =>
    if (symbols.getD i default).address = address then rewind symbols address i
    else i + 1

/-- Embeds the scanning loop of `File::get_symbol` over `&symbols[index..]`:
breaks at the first symbol whose address differs, sets
`used_symbols[index] = true` (note: the source indexes with the
loop-invariant `index`, not the position of the current symbol), and records
whether any symbol's name equalled the requested name. -/
def scanSymbols (address : Nat) (name : Option ByteStr) (index : Nat) :
    List Symbol → List Bool → Bool → List Bool × Bool
  | [], used, found => (used, found)
  | s :: rest, used, found =>
    if s.address ≠ address then (used, found)
    else scanSymbols address name index rest (used.set index true)
      (found || (s.name == name))

/-- Embeds `File::get_symbol`.  The `&mut used_symbols` argument becomes part
of the returned pair. -/
def File.get_symbol (symbols : List Symbol) (used_symbols : List Bool)
    (address : Nat) (name : Option ByteStr) : Option Symbol × List Bool :=
  match binarySearchByAddress symbols address with
  | none => (none, used_symbols)
  | some i =>
    let index := rewind symbols address i
    let (used', found) :=
      scanSymbols address name index (symbols.drop index) used_symbols false
    if found then (none, used')
    else (some (symbols.getD index default), used')

/-- Embeds the function branch of `File::normalize`'s first pass: for one
function, if it has a `low_pc`, look up and possibly stamp `symbol_name`. -/
def stampFunction (symbols : List Symbol) (used : List Bool) (fn : Function) :
    Function × List Bool :=
  match fn.low_pc with
  | some address =>
    match File.get_symbol symbols used address (optOr fn.linkage_name fn.name) with
    | (some symbol, used') => ({ fn with symbol_name := symbol.name }, used')
    | (none, used') => (fn, used')
  | none => (fn, used)

/-- Embeds the variable branch of `File::normalize`'s first pass. -/
def stampVariable (symbols : List Symbol) (used : List Bool) (v : Variable) :
    Variable × List Bool :=
  match v.address with
  | some address =>
    match File.get_symbol symbols used address (optOr v.linkage_name v.name) with
    | (some symbol, used') => ({ v with symbol_name := symbol.name }, used')
    | (none, used') => (v, used')
  | none => (v, used)

/-- Embeds `for function in unit.functions.values_mut() { ... }`. -/
def stampFunctions (symbols : List Symbol) :
    List (Nat × Function) → List Bool → List (Nat × Function) × List Bool
  | [], used => ([], used)
  | kv :: rest, used =>
    let (fn', used') := stampFunction symbols used kv.2
    let (rest', used'') := stampFunctions symbols rest used'
    ((kv.1, fn') :: rest', used'')

/-- Embeds `for variable in unit.variables.values_mut() { ... }`. -/
def stampVariables (symbols : List Symbol) :
    List (Nat × Variable) → List Bool → List (Nat × Variable) × List Bool
  | [], used => ([], used)
  | kv :: rest, used =>
    let (v', used') := stampVariable symbols used kv.2
    let (rest', used'') := stampVariables symbols rest used'
    ((kv.1, v') :: rest', used'')

/-- Embeds the body of `for unit in &mut self.units { ... }` for one unit:
functions first, then variables. -/
def processUnit (symbols : List Symbol) (u : Unit) (used : List Bool) :
    Unit × List Bool :=
  let (fns, used1) := stampFunctions symbols u.functions used
  let (vars, used2) := stampVariables symbols u.vars used1
  ({ u with functions := fns, vars := vars }, used2)

/-- Embeds `for unit in &mut self.units { ... }`. -/
def processUnits (symbols : List Symbol) :
    List Unit → List Bool → List Unit × List Bool
  | [], used => ([], used)
  | u :: rest, used =>
    let (u', used') := processUnit symbols u used
    let (rest', used'') := processUnits symbols rest used'
    (u' :: rest', used'')

/-- The bytes of `b"<symtab>"`. -/
def symtabName : ByteStr := [60, 115, 121, 109, 116, 97, 98, 62]

/-- The `Variable` built for a headless symbol in `File::normalize`. -/
def mkSynthVariable (symbol : Symbol) : Variable :=
  { name := symbol.name
    linkage_name := symbol.name
    address := some symbol.address
    size := some symbol.size
    symbol_name := none }

/-- The `Function` built for a headless symbol in `File::normalize`. -/
def mkSynthFunction (symbol : Symbol) : Function :=
  { name := symbol.name
    linkage_name := symbol.name
    low_pc := some symbol.address
    high_pc := some (symbol.address + symbol.size)
    size := some symbol.size
    symbol_name := none }

/-- The range `[address, address + size)` pushed for a headless symbol. -/
def symbolRange (symbol : Symbol) : Range :=
  ⟨symbol.address, symbol.address + symbol.size⟩

/-- Embeds one iteration of the headless-symbol loop of `File::normalize`;
the entry is `(index, (symbol, used))` as produced by
`symbols.iter().zip(used_symbols.iter()).enumerate()`. -/
def synthStep (u : Unit) (entry : Nat × (Symbol × Bool)) : Unit :=
  if entry.2.2 then u
  else
    let u' := { u with ranges := u.ranges ++ [symbolRange entry.2.1] }
    match entry.2.1.ty with
    | SymbolType.Variable =>
      { u' with vars := u'.vars ++ [(entry.1, mkSynthVariable entry.2.1)] }
    | SymbolType.Function =>
      { u' with functions := u'.functions ++ [(entry.1, mkSynthFunction entry.2.1)] }

/-- Embeds the second half of `File::normalize`: build the `<symtab>` unit
from symbols not marked used, then sort its ranges. -/
def buildSynth (symbols : List Symbol) (used : List Bool) : Unit :=
  let u : Unit := { name := some symtabName, ranges := [], functions := [],
                    vars := [], types := [] }
  let u := ((symbols.zip used).enum).foldl synthStep u
  { u with ranges := sortRanges u.ranges }

/-- Embeds `self.symbols.sort_by(|a, b| a.address.cmp(&b.address))` (a stable
sort by address, modelled by insertion sort — also stable). -/
def sortSymbols (symbols : List Symbol) : List Symbol :=
  List.insertionSort (fun a b => a.address ≤ b.address) symbols

/-- The `used_symbols` array as it stands after the first pass of
`File::normalize` (after all functions and variables have been processed). -/
def normalizeUsed (f : File) : List Bool :=
  (processUnits (sortSymbols f.symbols) f.units
    (List.replicate (sortSymbols f.symbols).length false)).2

/-- The `<symtab>` unit appended by `File::normalize`. -/
def synthUnit (f : File) : Unit :=
  buildSynth (sortSymbols f.symbols) (normalizeUsed f)

/-- Embeds `File::normalize`. -/
def File.normalize (f : File) : File :=
  let symbols := sortSymbols f.symbols
  let used0 := List.replicate symbols.length false
  let (units', used1) := processUnits symbols f.units used0
  let synth := buildSynth symbols used1
  { f with symbols := symbols, units := units' ++ [synth] }

/-- Embeds `File::ranges`: push every addressed section's range, then every
unit's ranges, then sort. -/
def File.ranges (f : File) : List Range :=
  let ranges : List Range := []
  let ranges := f.sections.foldl
    (fun rs sec =>
      match Section.addressRange sec with
      | some range => rs ++ [range]
      | none => rs) ranges
  let ranges := f.units.foldl
    (fun rs u => u.ranges.foldl (fun rs' range => rs' ++ [range]) rs) ranges
  sortRanges ranges

/-- All functions of a file in iteration order (units in order, each unit's
function map in order). -/
def File.allFunctions (f : File) : List Function :=
  f.units.flatMap fun u => u.functions.map Prod.snd

/-- Embeds `FileHash::functions`: a `HashMap` built by inserting every
function with a known `low_pc`, keyed by that address.  The map is modelled
extensionally as `Nat → Option Function`; `HashMap::insert` replaces any
previous entry for the key. -/
def FileHash.functions (f : File) : Nat → Option Function :=
  f.units.foldl
    (fun m u =>
      u.functions.foldl
        (fun m' kv =>
          match kv.2.low_pc with
          | some low_pc => fun a => if a = low_pc then some kv.2 else m' a
          | none => m') m)
    (fun _ => none)

/-- Embeds `FileHash::types`: `insert` for every unit's types, last writer
wins. -/
def FileHash.types (f : File) : Nat → Option Typ :=
  f.units.foldl
    (fun m u =>
      u.types.foldl
        (fun m' kv => fun o => if o = kv.1 then some kv.2 else m' o) m)
    (fun _ => none)

/-- Lexicographic comparison of byte strings (the derived `Ord` of `&[u8]`). -/
def cmpBytes : ByteStr → ByteStr → Ordering
  | [], [] => Ordering.eq
  | [], _ :: _ => Ordering.lt
  | _ :: _, [] => Ordering.gt
  | a :: as, b :: bs =>
    match compare a b with
    | Ordering.eq => cmpBytes as bs
    | o => o

/-- Comparison of optional names (the derived `Ord` of `Option<&[u8]>`:
`None` sorts before `Some`). -/
def cmpOptBytes : Option ByteStr → Option ByteStr → Ordering
  | none, none => Ordering.eq
  | none, some _ => Ordering.lt
  | some _, none => Ordering.gt
  | some a, some b => cmpBytes a b

/-- Embeds `<Section as DiffList>::step_cost`. -/
def Section.step_cost : Nat := 1

/-- Embeds `<Section as DiffList>::diff_cost`:
`if a.name.cmp(&b.name) != Ordering::Equal { cost += 2 }`. -/
def Section.diff_cost (a b : Section) : Nat :=
  let cost := 0
  let cost := if cmpOptBytes a.name b.name ≠ Ordering.eq then cost + 2 else cost
  cost

/-- Embeds `<Symbol as DiffList>::step_cost`. -/
def Symbol.step_cost : Nat := 1

/-- Embeds `<Symbol as DiffList>::diff_cost`. -/
def Symbol.diff_cost (a b : Symbol) : Nat :=
  let cost := 0
  let cost := if cmpOptBytes a.name b.name ≠ Ordering.eq then cost + 2 else cost
  cost

/-- Models `goblin::Hint`: the result of format sniffing. -/
inductive Hint where
  | elf
  | mach
  | machFat
  | pe
  | archive
  | unknown
deriving DecidableEq, Repr

/-- The outcome of `File::parse`: which parser the input is dispatched to, or
the error string produced. -/
inductive ParseOutcome where
  | pdb (input : List Nat) (path : String)
  | elf (input : List Nat) (path : String)
  | mach (input : List Nat) (path : String)
  | error (msg : String)
deriving DecidableEq, Repr

/-- The bytes of `b"Microsoft C/C++ MSF 7.00\r\n\x1a\x44\x53\x00"`. -/
def pdbMagic : List Nat :=
  [77, 105, 99, 114, 111, 115, 111, 102, 116, 32, 67, 47, 67, 43, 43, 32,
   77, 83, 70, 32, 55, 46, 48, 48, 13, 10, 26, 68, 83, 0]

/-- Embeds `File::parse`.  The external effects are passed in: `openResult`
models `fs::File::open` (the handle as a number), `mmapResult` models
`memmap::Mmap::open` plus `as_slice` (the mapped bytes), and `peek` models
`goblin::peek`.  Dispatch to a format parser is represented by the
corresponding `ParseOutcome` constructor. -/
def File.parse (path : String) (openResult : Except String Nat)
    (mmapResult : Nat → Except String (List Nat))
    (peek : List Nat → Except String Hint) : ParseOutcome :=
  match openResult with
  | Except.error e => ParseOutcome.error ("open failed: " ++ e)
  | Except.ok file =>
    match mmapResult file with
    | Except.error e => ParseOutcome.error ("memmap failed: " ++ e)
    | Except.ok input =>
      if pdbMagic.isPrefixOf input then ParseOutcome.pdb input path
      else
        match peek input with
        | Except.ok Hint.elf => ParseOutcome.elf input path
        | Except.ok Hint.mach => ParseOutcome.mach input path
        | Except.ok _ => ParseOutcome.error "unrecognized file format"
        | Except.error e =>
          ParseOutcome.error ("file identification failed: " ++ e)

/-- The symbol list as `sort_by` leaves it: sorted by address, non-strictly. -/
def sortedByAddr (l : List Symbol) : Prop :=
  l.Pairwise fun a b => a.address ≤ b.address

/-- The function entry (if any) that one enumerated `(symbol, used)` entry
contributes to the `<symtab>` unit; used to characterize `buildSynth`. -/
def synthFnOf (entry : Nat × (Symbol × Bool)) : Option (Nat × Function) :=
  if entry.2.2 = false ∧ entry.2.1.ty = SymbolType.Function then
    some (entry.1, mkSynthFunction entry.2.1)
  else none

/-- The variable entry (if any) contributed by one enumerated entry. -/
def synthVarOf (entry : Nat × (Symbol × Bool)) : Option (Nat × Variable) :=
  if entry.2.2 = false ∧ entry.2.1.ty = SymbolType.Variable then
    some (entry.1, mkSynthVariable entry.2.1)
  else none

/-- The range (if any) contributed by one enumerated entry. -/
def synthRangeOf (entry : Nat × (Symbol × Bool)) : Option Range :=
  if entry.2.2 = false then some (symbolRange entry.2.1) else none

/-- Erase the one function field normalization may write. -/
def Function.clearSym (fn : Function) : Function :=
  { fn with symbol_name := none }

/-- Erase the one variable field normalization may write. -/
def Variable.clearSym (v : Variable) : Variable :=
  { v with symbol_name := none }

/-- Erase, throughout a unit, the fields normalization may write. -/
def Unit.clearSym (u : Unit) : Unit :=
  { u with functions := u.functions.map fun kv => (kv.1, kv.2.clearSym),
           vars := u.vars.map fun kv => (kv.1, kv.2.clearSym) }

/-- Two symbols sharing address 5 (input exhibiting the `used_symbols` bug). -/
def symA : Symbol := ⟨some [97], SymbolType.Function, 5, 1⟩

/-- Second symbol at address 5. -/
def symB : Symbol := ⟨some [98], SymbolType.Function, 5, 1⟩

/-- A function named "1" at address 0x2000. -/
def fnOne : Function := ⟨some [49], none, some 8192, none, none, none⟩

/-- A function named "2", also at address 0x2000. -/
def fnTwo : Function := ⟨some [50], none, some 8192, none, none, none⟩

/-- A file whose single unit holds two functions sharing `low_pc = 0x2000`,
`fnOne` inserted first. -/
def dupAddrFile : File :=
  ⟨"t", none, [], [], [⟨none, [], [(0, fnOne), (1, fnTwo)], [], []⟩]⟩

/-- A function named "foo" with `low_pc = 0x1000` and no linkage name. -/
def fooFn : Function := ⟨some [102, 111, 111], none, some 4096, none, none, none⟩

/-- A symbol named "foo" at address 0x1000. -/
def fooSym : Symbol := ⟨some [102, 111, 111], SymbolType.Function, 4096, 4⟩

/-- A file where the only symbol's name matches the only function's name at
the same address. -/
def matchedFile : File :=
  ⟨"t", none, [], [fooSym], [⟨none, [], [(0, fooFn)], [], []⟩]⟩

/-- A file with one Function symbol at 0x1000 of size 0x10 and no debug
entities at all (the spec's headless-symbol example). -/
def headlessFile : File :=
  ⟨"t", none, [], [⟨some [104], SymbolType.Function, 4096, 16⟩], []⟩

/-- A file with an empty symbol table and no units. -/
def emptyFile : File := ⟨"e", none, [], [], []⟩

/-- A symbol named "b" at address 0x1000 (for the lookup witness). -/
def wSymB : Symbol := ⟨some [98], SymbolType.Function, 4096, 4⟩

/-! ## Theorems -/

theorem cmpBytes_eq_iff : ∀ a b : ByteStr, cmpBytes a b = Ordering.eq ↔ a = b
  | [], [] => by simp [cmpBytes]
  | [], _ :: _ => by simp [cmpBytes]
  | _ :: _, [] => by simp [cmpBytes]
  | a :: as, b :: bs => by
    rw [cmpBytes]
    rcases h : compare a b with _ | _ | _
    · simp only [h]
      constructor
      · intro hc; cases hc
      · intro heq
        have hab : a = b := (List.cons.injEq .. ▸ heq).1
        rw [compare_eq_iff_eq.mpr hab] at h
        cases h
    · have hab : a = b := compare_eq_iff_eq.mp h
      subst hab
      simp only [h, cmpBytes_eq_iff as bs]
      simp
    · simp only [h]
      constructor
      · intro hc; cases hc
      · intro heq
        have hab : a = b := (List.cons.injEq .. ▸ heq).1
        rw [compare_eq_iff_eq.mpr hab] at h
        cases h

theorem cmpOptBytes_eq_iff : ∀ a b : Option ByteStr,
    cmpOptBytes a b = Ordering.eq ↔ a = b
  | none, none => by simp [cmpOptBytes]
  | none, some _ => by simp [cmpOptBytes]
  | some _, none => by simp [cmpOptBytes]
  | some a, some b => by
    simp only [cmpOptBytes, cmpBytes_eq_iff a b, Option.some.injEq]

/-- C8: for the Section and Symbol entity kinds, step_cost() = 1, and
diff_cost(a, b) = 0 when the names are equal and 2 when they differ. -/
theorem diffList_costs_section_symbol :
    Section.step_cost = 1 ∧ Symbol.step_cost = 1 ∧
    (∀ a b : Section, Section.diff_cost a b = if a.name = b.name then 0 else 2) ∧
    (∀ a b : Symbol, Symbol.diff_cost a b = if a.name = b.name then 0 else 2) := by
  refine ⟨rfl, rfl, ?_, ?_⟩
  · intro a b
    rw [Section.diff_cost]
    by_cases h : a.name = b.name
    · rw [if_pos h]
      have hc : cmpOptBytes a.name b.name = Ordering.eq :=
        (cmpOptBytes_eq_iff _ _).mpr h
      simp [hc]
    · rw [if_neg h]
      have hc : cmpOptBytes a.name b.name ≠ Ordering.eq :=
        fun hc => h ((cmpOptBytes_eq_iff _ _).mp hc)
      simp [hc]
  · intro a b
    rw [Symbol.diff_cost]
    by_cases h : a.name = b.name
    · rw [if_pos h]
      have hc : cmpOptBytes a.name b.name = Ordering.eq :=
        (cmpOptBytes_eq_iff _ _).mpr h
      simp [hc]
    · rw [if_neg h]
      have hc : cmpOptBytes a.name b.name ≠ Ordering.eq :=
        fun hc => h ((cmpOptBytes_eq_iff _ _).mp hc)
      simp [hc]

/-- C2 (the code contradicts this claim): looking up address 5 in a sorted
list holding two symbols at address 5 marks only the first one used — the
loop body writes `used_symbols[index]` with the loop-invariant `index`, so
the result is `[true, false]`, not `[true, true]`. -/
theorem get_symbol_marks_only_first_used :
    (File.get_symbol [symA, symB] [false, false] 5 none).2 = [true, false] := by
  decide

/-- `HashMap::insert` modelled as override, folded over a list of functions:
the result looks up the last inserted function with the given `low_pc`. -/
theorem foldl_insertFn_eq_find (a : Nat) :
    ∀ (fns : List Function) (m : Nat → Option Function),
      (fns.foldl
        (fun m' fn =>
          match fn.low_pc with
          | some low_pc => fun x => if x = low_pc then some fn else m' x
          | none => m') m) a =
      (fns.reverse.find? fun fn => fn.low_pc == some a).or (m a) := by
  intro fns
  induction fns with
  | nil => intro m; simp
  | cons fn rest ih =>
    intro m
    rw [List.foldl_cons, ih, List.reverse_cons, List.find?_append, Option.or_assoc]
    congr 1
    rcases h : fn.low_pc with _ | l
    · simp [List.find?, h]
    · by_cases hal : a = l
      · subst hal
        simp [List.find?, h]
      · have hba : (l == a) = false := by
          simp only [beq_eq_false_iff_ne, ne_eq]
          exact fun hc => hal hc.symm
        simp [List.find?, h, hba, hal]

/-- C3 counterexample: two functions share `low_pc = 0x2000`, `fnOne`
inserted first; the map retains `fnTwo` (the later insertion), not `fnOne`,
so "first insertion wins" fails on this input. -/
theorem fileHash_functions_keeps_last_example :
    FileHash.functions dupAddrFile 8192 = some fnTwo ∧ fnTwo ≠ fnOne := by
  constructor
  · decide
  · decide

/-- C3 amended: on duplicate addresses the **last** insertion in iteration
order wins — the lookup map agrees with finding the most recently inserted
function whose `low_pc` matches. -/
theorem fileHash_functions_last_insertion_wins (f : File) (a : Nat) :
    FileHash.functions f a =
      (File.allFunctions f).reverse.find? fun fn => fn.low_pc == some a := by
  rw [FileHash.functions, File.allFunctions]
  have main : ∀ (units : List Unit) (m : Nat → Option Function),
      (units.foldl
        (fun m' u =>
          u.functions.foldl
            (fun m'' kv =>
              match kv.2.low_pc with
              | some low_pc => fun x => if x = low_pc then some kv.2 else m'' x
              | none => m'') m') m) a =
      ((units.flatMap fun u => u.functions.map Prod.snd).reverse.find?
        fun fn => fn.low_pc == some a).or (m a) := by
    intro units
    induction units with
    | nil => intro m; simp
    | cons u rest ih =>
      intro m
      rw [List.foldl_cons, ih, List.flatMap_cons, List.reverse_append,
        List.find?_append, Option.or_assoc]
      congr 1
      have : u.functions.foldl
          (fun m'' kv =>
            match kv.2.low_pc with
            | some low_pc => fun x => if x = low_pc then some kv.2 else m'' x
            | none => m'') m =
          (u.functions.map Prod.snd).foldl
            (fun m'' fn =>
              match fn.low_pc with
              | some low_pc => fun x => if x = low_pc then some fn else m'' x
              | none => m'') m := by
        rw [List.foldl_map]
      rw [this, foldl_insertFn_eq_find]
  rw [main]
  simp

theorem foldl_push_eq_append : ∀ (l acc : List Range),
    l.foldl (fun rs' range => rs' ++ [range]) acc = acc ++ l := by
  intro l
  induction l with
  | nil => intro acc; simp
  | cons r rest ih => intro acc; simp [ih]

theorem foldl_push_sections : ∀ (sections : List Section) (acc : List Range),
    sections.foldl
      (fun rs sec =>
        match Section.addressRange sec with
        | some range => rs ++ [range]
        | none => rs) acc =
    acc ++ sections.filterMap Section.addressRange := by
  intro sections
  induction sections with
  | nil => intro acc; simp
  | cons s rest ih =>
    intro acc
    rw [List.foldl_cons, List.filterMap_cons]
    rcases h : Section.addressRange s with _ | r
    · simp [h, ih]
    · simp [h, ih]

theorem foldl_push_units : ∀ (units : List Unit) (acc : List Range),
    units.foldl
      (fun rs u => u.ranges.foldl (fun rs' range => rs' ++ [range]) rs) acc =
    acc ++ units.flatMap Unit.ranges := by
  intro units
  induction units with
  | nil => intro acc; simp
  | cons u rest ih =>
    intro acc
    rw [List.foldl_cons, foldl_push_eq_append, ih, List.flatMap_cons,
      List.append_assoc]

/-- C6: `File::ranges` returns a sorted list that is, as a multiset, exactly
one range per addressed section plus every range of every unit's range list;
addressless sections contribute nothing, and nothing is merged or
deduplicated (the output is a permutation of the concatenation). -/
theorem ranges_sorted_perm (f : File) :
    List.Sorted rangeLE (File.ranges f) ∧
    (File.ranges f).Perm
      (f.sections.filterMap Section.addressRange ++
        f.units.flatMap Unit.ranges) := by
  have hunfold : File.ranges f =
      sortRanges (f.sections.filterMap Section.addressRange ++
        f.units.flatMap Unit.ranges) := by
    rw [File.ranges]
    rw [foldl_push_sections, foldl_push_units]
    simp
  constructor
  · rw [hunfold, sortRanges]
    exact List.sorted_insertionSort rangeLE _
  · rw [hunfold, sortRanges]
    exact List.perm_insertionSort rangeLE _

/-- C7: parse dispatch and error reporting.  If the bytes start with the PDB
magic, dispatch to the PDB parser; otherwise sniffing sends ELF and Mach-O
hints to their parsers, any other successful hint fails with "unrecognized
file format", a sniffing failure is "file identification failed: ...", an
open failure is "open failed: ..." and a memory-map failure is
"memmap failed: ...". -/
theorem parse_dispatch_and_errors (path : String) (o : Except String Nat)
    (mm : Nat → Except String (List Nat))
    (peek : List Nat → Except String Hint) :
    (∀ e, o = Except.error e →
      File.parse path o mm peek = ParseOutcome.error ("open failed: " ++ e)) ∧
    (∀ fd e, o = Except.ok fd → mm fd = Except.error e →
      File.parse path o mm peek = ParseOutcome.error ("memmap failed: " ++ e)) ∧
    (∀ fd input, o = Except.ok fd → mm fd = Except.ok input →
      pdbMagic.isPrefixOf input = true →
      File.parse path o mm peek = ParseOutcome.pdb input path) ∧
    (∀ fd input, o = Except.ok fd → mm fd = Except.ok input →
      pdbMagic.isPrefixOf input = false → peek input = Except.ok Hint.elf →
      File.parse path o mm peek = ParseOutcome.elf input path) ∧
    (∀ fd input, o = Except.ok fd → mm fd = Except.ok input →
      pdbMagic.isPrefixOf input = false → peek input = Except.ok Hint.mach →
      File.parse path o mm peek = ParseOutcome.mach input path) ∧
    (∀ fd input h, o = Except.ok fd → mm fd = Except.ok input →
      pdbMagic.isPrefixOf input = false → peek input = Except.ok h →
      h ≠ Hint.elf → h ≠ Hint.mach →
      File.parse path o mm peek = ParseOutcome.error "unrecognized file format") ∧
    (∀ fd input e, o = Except.ok fd → mm fd = Except.ok input →
      pdbMagic.isPrefixOf input = false → peek input = Except.error e →
      File.parse path o mm peek =
        ParseOutcome.error ("file identification failed: " ++ e)) := by
  refine ⟨?_, ?_, ?_, ?_, ?_, ?_, ?_⟩
  · intro e ho; subst ho; rfl
  · intro fd e ho hm; subst ho; simp [File.parse, hm]
  · intro fd input ho hm hmagic; subst ho; simp [File.parse, hm, hmagic]
  · intro fd input ho hm hmagic hp; subst ho; simp [File.parse, hm, hmagic, hp]
  · intro fd input ho hm hmagic hp; subst ho; simp [File.parse, hm, hmagic, hp]
  · intro fd input h ho hm hmagic hp hne hnm
    subst ho
    cases h <;> simp [File.parse, hm, hmagic, hp] <;> simp at hne hnm
  · intro fd input e ho hm hmagic hp; subst ho; simp [File.parse, hm, hmagic, hp]

/-- C7 witness: concrete instances of the PDB-magic dispatch and of the
open-failure report. -/
theorem parse_dispatch_and_errors_witness :
    File.parse "a" (Except.ok 0) (fun _ => Except.ok pdbMagic)
      (fun _ => Except.ok Hint.unknown) = ParseOutcome.pdb pdbMagic "a" ∧
    File.parse "a" (Except.error "no") (fun _ => Except.ok [])
      (fun _ => Except.ok Hint.unknown) =
      ParseOutcome.error ("open failed: " ++ "no") := by
  constructor
  · exact (parse_dispatch_and_errors "a" (Except.ok 0)
      (fun _ => Except.ok pdbMagic) (fun _ => Except.ok Hint.unknown)).2.2.1
      0 pdbMagic rfl rfl (by decide)
  · exact (parse_dispatch_and_errors "a" (Except.error "no")
      (fun _ => Except.ok []) (fun _ => Except.ok Hint.unknown)).1 "no" rfl

theorem sorted_getD_mono {l : List Symbol} (hs : sortedByAddr l)
    (i j : Nat) (hij : i ≤ j) (hj : j < l.length) :
    (l.getD i default).address ≤ (l.getD j default).address := by
  rcases Nat.eq_or_lt_of_le hij with rfl | hlt
  · exact le_refl _
  · have hi : i < l.length := lt_trans hlt hj
    rw [List.getD_eq_getElem _ _ hi, List.getD_eq_getElem _ _ hj]
    have := List.pairwise_iff_get.mp hs ⟨i, hi⟩ ⟨j, hj⟩ hlt
    simpa using this

theorem bsearchGo_some (symbols : List Symbol) (address : Nat) :
    ∀ (fuel left right i : Nat),
      bsearchGo symbols address fuel left right = some i →
      left ≤ i ∧ i < right ∧ (symbols.getD i default).address = address := by
  intro fuel
  induction fuel with
  | zero => intro left right i h; simp [bsearchGo] at h
  | succ fuel ih =>
    intro left right i h
    rw [bsearchGo] at h
    by_cases hlr : left < right
    · rw [if_pos hlr] at h
      have hmidlt : left + (right - left) / 2 < right := by
        have := Nat.div_lt_self (show 0 < right - left by omega)
          (show 1 < 2 by omega)
        omega
      by_cases hc1 :
          (symbols.getD (left + (right - left) / 2) default).address < address
      · rw [if_pos hc1] at h
        have := ih _ _ _ h
        exact ⟨by omega, this.2.1, this.2.2⟩
      · rw [if_neg hc1] at h
        by_cases hc2 :
            address < (symbols.getD (left + (right - left) / 2) default).address
        · rw [if_pos hc2] at h
          have := ih _ _ _ h
          exact ⟨this.1, by omega, this.2.2⟩
        · rw [if_neg hc2] at h
          have hi : i = left + (right - left) / 2 := by
            cases h; rfl
          subst hi
          exact ⟨by omega, hmidlt, by omega⟩
    · rw [if_neg hlr] at h
      cases h

theorem bsearchGo_complete (symbols : List Symbol) (address : Nat)
    (hs : sortedByAddr symbols) :
    ∀ (fuel left right j : Nat), right - left ≤ fuel →
      right ≤ symbols.length → left ≤ j → j < right →
      (symbols.getD j default).address = address →
      (bsearchGo symbols address fuel left right).isSome = true := by
  intro fuel
  induction fuel with
  | zero => intro l r j h1 h2 h3 h4 h5; exfalso; omega
  | succ fuel ih =>
    intro l r j h1 h2 h3 h4 h5
    have hlr : l < r := by omega
    have hmidlt : l + (r - l) / 2 < r := by
      have := Nat.div_lt_self (show 0 < r - l by omega) (show 1 < 2 by omega)
      omega
    rw [bsearchGo, if_pos hlr]
    by_cases hc1 : (symbols.getD (l + (r - l) / 2) default).address < address
    · rw [if_pos hc1]
      have hj : l + (r - l) / 2 < j := by
        by_contra hle
        push_neg at hle
        have := sorted_getD_mono hs j (l + (r - l) / 2) hle (by omega)
        omega
      exact ih (l + (r - l) / 2 + 1) r j (by omega) h2 (by omega) h4 h5
    · rw [if_neg hc1]
      by_cases hc2 :
          address < (symbols.getD (l + (r - l) / 2) default).address
      · rw [if_pos hc2]
        have hj : j < l + (r - l) / 2 := by
          by_contra hle
          push_neg at hle
          have := sorted_getD_mono hs (l + (r - l) / 2) j hle (by omega)
          omega
        exact ih l (l + (r - l) / 2) j (by omega) (by omega) h3 hj h5
      · rw [if_neg hc2]
        rfl

theorem binarySearch_some (symbols : List Symbol) (address i : Nat)
    (h : binarySearchByAddress symbols address = some i) :
    i < symbols.length ∧ (symbols.getD i default).address = address := by
  have := bsearchGo_some symbols address symbols.length 0 symbols.length i h
  exact ⟨this.2.1, this.2.2⟩

theorem binarySearch_finds (symbols : List Symbol) (address : Nat)
    (hs : sortedByAddr symbols) (j : Nat) (hj : j < symbols.length)
    (hja : (symbols.getD j default).address = address) :
    (binarySearchByAddress symbols address).isSome = true :=
  bsearchGo_complete symbols address hs symbols.length 0 symbols.length j
    (by omega) (le_refl _) (Nat.zero_le _) hj hja

theorem rewind_le (symbols : List Symbol) (address : Nat) :
    ∀ i, rewind symbols address i ≤ i := by
  intro i
  induction i with
  | zero => simp [rewind]
  | succ i ih =>
    by_cases hprev : (symbols.getD i default).address = address
    · rw [rewind, if_pos hprev]
      exact le_trans ih (Nat.le_succ i)
    · rw [rewind, if_neg hprev]

theorem rewind_addr (symbols : List Symbol) (address : Nat) :
    ∀ i, (symbols.getD i default).address = address →
      (symbols.getD (rewind symbols address i) default).address = address := by
  intro i
  induction i with
  | zero => intro h; simpa [rewind] using h
  | succ i ih =>
    intro h
    by_cases hprev : (symbols.getD i default).address = address
    · rw [rewind, if_pos hprev]
      exact ih hprev
    · rw [rewind, if_neg hprev]
      exact h

theorem rewind_prev (symbols : List Symbol) (address : Nat) :
    ∀ i, rewind symbols address i = 0 ∨
      (symbols.getD (rewind symbols address i - 1) default).address ≠ address := by
  intro i
  induction i with
  | zero => left; rfl
  | succ i ih =>
    by_cases hprev : (symbols.getD i default).address = address
    · rw [rewind, if_pos hprev]
      exact ih
    · right
      rw [rewind, if_neg hprev]
      simpa using hprev

theorem rewind_lt_addr (symbols : List Symbol) (address : Nat)
    (hs : sortedByAddr symbols) (i : Nat) (hi : i < symbols.length)
    (hia : (symbols.getD i default).address = address) :
    ∀ k, k < rewind symbols address i →
      (symbols.getD k default).address < address := by
  intro k hk
  have hle := rewind_le symbols address i
  rcases rewind_prev symbols address i with h0 | hne
  · omega
  · have h2 : (symbols.getD (rewind symbols address i - 1) default).address ≤
        address := by
      have := sorted_getD_mono hs (rewind symbols address i - 1) i (by omega) hi
      omega
    have h3 : (symbols.getD (rewind symbols address i - 1) default).address <
        address := lt_of_le_of_ne h2 hne
    have h4 : (symbols.getD k default).address ≤
        (symbols.getD (rewind symbols address i - 1) default).address :=
      sorted_getD_mono hs k (rewind symbols address i - 1) (by omega) (by omega)
    omega

theorem scanSymbols_found (address : Nat) (name : Option ByteStr) (index : Nat) :
    ∀ (rest : List Symbol) (used : List Bool) (found : Bool),
      (scanSymbols address name index rest used found).2 =
        (found ||
          (rest.takeWhile fun s => s.address == address).any
            fun s => s.name == name) := by
  intro rest
  induction rest with
  | nil => intro used found; simp [scanSymbols]
  | cons s rest ih =>
    intro used found
    by_cases hsa : s.address = address
    · have hne : ¬s.address ≠ address := by simpa using hsa
      rw [scanSymbols, if_neg hne, ih, List.takeWhile_cons,
        if_pos (by simpa using hsa)]
      simp [Bool.or_assoc]
    · rw [scanSymbols, if_pos (by simpa using hsa), List.takeWhile_cons,
        if_neg (by simpa using hsa)]
      simp

theorem getD_drop (l : List Symbol) (n m : Nat) (hm : n + m < l.length) :
    (l.drop n).getD m default = l.getD (n + m) default := by
  have hm' : m < (l.drop n).length := by
    rw [List.length_drop]; omega
  rw [List.getD_eq_getElem _ _ hm', List.getD_eq_getElem _ _ hm]
  exact List.getElem_drop l

theorem getD_mem_takeWhile (p : Symbol → Bool) :
    ∀ (l : List Symbol) (pos : Nat), pos < l.length →
      (∀ m, m ≤ pos → p (l.getD m default) = true) →
      l.getD pos default ∈ l.takeWhile p := by
  intro l
  induction l with
  | nil => intro pos h; simp at h
  | cons x xs ih =>
    intro pos hpos hall
    have hx : p x = true := by
      have := hall 0 (Nat.zero_le _)
      simpa using this
    rw [List.takeWhile_cons, if_pos hx]
    cases pos with
    | zero => simp
    | succ pos =>
      rw [List.getD_cons_succ]
      refine List.mem_cons_of_mem _ ?_
      refine ih pos (by simpa using hpos) ?_
      intro m hm
      have := hall (m + 1) (by omega)
      simpa using this

theorem find?_eq_getD (p : Symbol → Bool) :
    ∀ (l : List Symbol) (j : Nat), j < l.length →
      (∀ k, k < j → p (l.getD k default) = false) →
      p (l.getD j default) = true →
      l.find? p = some (l.getD j default) := by
  intro l
  induction l with
  | nil => intro j h; simp at h
  | cons x xs ih =>
    intro j hj hbefore hp
    cases j with
    | zero =>
      rw [List.getD_cons_zero] at hp ⊢
      exact List.find?_cons_of_pos _ hp
    | succ j =>
      have hx : p x = false := by
        have := hbefore 0 (Nat.succ_pos _)
        simpa using this
      rw [List.find?_cons_of_neg _ (by simp [hx]), List.getD_cons_succ]
      refine ih j (by simpa using hj) ?_ (by simpa using hp)
      intro k hk
      have := hbefore (k + 1) (by omega)
      simpa using this

theorem block_of_addr (symbols : List Symbol) (address : Nat)
    (hs : sortedByAddr symbols) (i : Nat)
    (hbs : binarySearchByAddress symbols address = some i) :
    ∀ s ∈ symbols, s.address = address →
      s ∈ (symbols.drop (rewind symbols address i)).takeWhile
        fun t => t.address == address := by
  intro s hsmem hsa
  obtain ⟨⟨j, hj⟩, hget⟩ := List.mem_iff_get.mp hsmem
  have hgd : symbols.getD j default = s := by
    rw [List.getD_eq_getElem _ _ hj]
    simpa using hget
  obtain ⟨hi, hia⟩ := binarySearch_some symbols address i hbs
  have hrle := rewind_le symbols address i
  have hfi := rewind_addr symbols address i hia
  have hjge : rewind symbols address i ≤ j := by
    by_contra hlt
    push_neg at hlt
    have := rewind_lt_addr symbols address hs i hi hia j hlt
    rw [hgd, hsa] at this
    omega
  have hpos : j - rewind symbols address i <
      (symbols.drop (rewind symbols address i)).length := by
    rw [List.length_drop]
    omega
  have hcond : ∀ m, m ≤ j - rewind symbols address i →
      (((symbols.drop (rewind symbols address i)).getD m default).address ==
        address) = true := by
    intro m hm
    rw [getD_drop _ _ _ (by omega)]
    have h1 : address ≤
        (symbols.getD (rewind symbols address i + m) default).address := by
      have := sorted_getD_mono hs (rewind symbols address i)
        (rewind symbols address i + m) (by omega) (by omega)
      omega
    have h2 : (symbols.getD (rewind symbols address i + m) default).address ≤
        address := by
      have := sorted_getD_mono hs (rewind symbols address i + m) j (by omega) hj
      rw [hgd, hsa] at this
      exact this
    have heq : (symbols.getD (rewind symbols address i + m) default).address =
        address := le_antisymm h2 h1
    simpa using heq
  have hmem := getD_mem_takeWhile (fun t => t.address == address)
    (symbols.drop (rewind symbols address i)) (j - rewind symbols address i)
    hpos hcond
  rw [getD_drop _ _ _ (by omega)] at hmem
  have hjj : rewind symbols address i + (j - rewind symbols address i) = j := by
    omega
  rw [hjj, hgd] at hmem
  exact hmem

/-- C1: for an address-sorted symbol list, a lookup at address `A` with
requested name `N`: if no symbol has address `A`, no symbol is returned; if
some symbol at `A` has name `N`, no symbol is returned; only when symbols
exist at `A` and none of their names equals `N` is the first symbol at `A`
returned — and a returned symbol's name is exactly what normalization stamps
into the entity's `symbol_name` (the entity is left unchanged otherwise). -/
theorem get_symbol_resolution_policy (symbols : List Symbol) (used : List Bool)
    (address : Nat) (name : Option ByteStr) (hs : sortedByAddr symbols) :
    ((∀ s ∈ symbols, s.address ≠ address) →
      (File.get_symbol symbols used address name).1 = none) ∧
    ((∃ s ∈ symbols, s.address = address ∧ s.name = name) →
      (File.get_symbol symbols used address name).1 = none) ∧
    ((∃ s ∈ symbols, s.address = address) →
      (∀ s ∈ symbols, s.address = address → s.name ≠ name) →
      (File.get_symbol symbols used address name).1 =
        symbols.find? fun s => s.address == address) ∧
    (∀ fn : Function, fn.low_pc = some address →
      (stampFunction symbols used fn).1 =
        (match (File.get_symbol symbols used address
            (optOr fn.linkage_name fn.name)).1 with
         | some s => { fn with symbol_name := s.name }
         | none => fn)) ∧
    (∀ v : Variable, v.address = some address →
      (stampVariable symbols used v).1 =
        (match (File.get_symbol symbols used address
            (optOr v.linkage_name v.name)).1 with
         | some s => { v with symbol_name := s.name }
         | none => v)) := by
  have hexists : ∀ s ∈ symbols, s.address = address →
      ∃ i, binarySearchByAddress symbols address = some i := by
    intro s hsmem hsa
    obtain ⟨⟨j, hj⟩, hget⟩ := List.mem_iff_get.mp hsmem
    have hgd : (symbols.getD j default).address = address := by
      rw [List.getD_eq_getElem _ _ hj]
      rw [show symbols[j] = s by simpa using hget, hsa]
    have := binarySearch_finds symbols address hs j hj hgd
    rcases h : binarySearchByAddress symbols address with _ | i
    · rw [h] at this; cases this
    · exact ⟨i, rfl⟩
  refine ⟨?_, ?_, ?_, ?_, ?_⟩
  · intro hall
    have hnone : binarySearchByAddress symbols address = none := by
      rcases h : binarySearchByAddress symbols address with _ | i
      · rfl
      · exfalso
        obtain ⟨hi, hia⟩ := binarySearch_some symbols address i h
        have hmem : symbols.getD i default ∈ symbols := by
          rw [List.getD_eq_getElem _ _ hi]
          exact List.getElem_mem hi
        exact hall _ hmem hia
    simp [File.get_symbol, hnone]
  · rintro ⟨s, hsmem, hsa, hsn⟩
    obtain ⟨i, hbs⟩ := hexists s hsmem hsa
    rcases hscan : scanSymbols address name (rewind symbols address i)
        (symbols.drop (rewind symbols address i)) used false with ⟨u', fnd⟩
    have hfnd : fnd = true := by
      have hsf := scanSymbols_found address name (rewind symbols address i)
        (symbols.drop (rewind symbols address i)) used false
      rw [hscan] at hsf
      simp only [Bool.false_or] at hsf
      rw [hsf, List.any_eq_true]
      exact ⟨s, block_of_addr symbols address hs i hbs s hsmem hsa,
        by simp [hsn]⟩
    simp [File.get_symbol, hbs, hscan, hfnd]
  · rintro ⟨s, hsmem, hsa⟩ hall
    obtain ⟨i, hbs⟩ := hexists s hsmem hsa
    obtain ⟨hi, hia⟩ := binarySearch_some symbols address i hbs
    rcases hscan : scanSymbols address name (rewind symbols address i)
        (symbols.drop (rewind symbols address i)) used false with ⟨u', fnd⟩
    have hfnd : fnd = false := by
      have hsf := scanSymbols_found address name (rewind symbols address i)
        (symbols.drop (rewind symbols address i)) used false
      rw [hscan] at hsf
      simp only [Bool.false_or] at hsf
      rw [hsf]
      rw [List.any_eq_false]
      intro x hx
      have hxa : x.address = address := by
        have := List.mem_takeWhile_imp hx
        simpa using this
      have hxmem : x ∈ symbols :=
        List.drop_subset _ _ ((List.takeWhile_prefix _).subset hx)
      have := hall x hxmem hxa
      simpa using this
    have hfind : symbols.find? (fun s => s.address == address) =
        some (symbols.getD (rewind symbols address i) default) := by
      have hrle := rewind_le symbols address i
      refine find?_eq_getD _ symbols (rewind symbols address i) (by omega)
        ?_ ?_
      · intro k hk
        have := rewind_lt_addr symbols address hs i hi hia k hk
        simp only [beq_eq_false_iff_ne, ne_eq]
        omega
      · have := rewind_addr symbols address i hia
        simpa using this
    rw [hfind]
    simp [File.get_symbol, hbs, hscan, hfnd]
  · intro fn hlow
    rw [stampFunction, hlow]
    rcases h : File.get_symbol symbols used address
        (optOr fn.linkage_name fn.name) with ⟨os, u2⟩
    cases os <;> simp [h]
  · intro v haddr
    rw [stampVariable, haddr]
    rcases h : File.get_symbol symbols used address
        (optOr v.linkage_name v.name) with ⟨os, u2⟩
    cases os <;> simp [h]

/-- C1 witness: with one symbol "b" at 0x1000, a lookup requesting "a"
returns that symbol (no name matched), and a lookup requesting "b" returns
nothing (a name matched). -/
theorem get_symbol_resolution_policy_witness :
    (File.get_symbol [wSymB] [false] 4096 (some [97])).1 = some wSymB ∧
    (File.get_symbol [wSymB] [false] 4096 (some [98])).1 = none := by
  have hs : sortedByAddr [wSymB] := by simp [sortedByAddr]
  constructor
  · have h := (get_symbol_resolution_policy [wSymB] [false] 4096
      (some [97]) hs).2.2.1 ⟨wSymB, by simp, by decide⟩ (by decide)
    rw [h]
    decide
  · exact (get_symbol_resolution_policy [wSymB] [false] 4096
      (some [98]) hs).2.1 ⟨wSymB, by simp, by decide, by decide⟩

theorem scanSymbols_fst_length (address : Nat) (name : Option ByteStr)
    (index : Nat) :
    ∀ (rest : List Symbol) (used : List Bool) (found : Bool),
      (scanSymbols address name index rest used found).1.length =
        used.length := by
  intro rest
  induction rest with
  | nil => intro used found; simp [scanSymbols]
  | cons s r ih =>
    intro used found
    by_cases hsa : s.address = address
    · rw [scanSymbols, if_neg (by simpa using hsa), ih, List.length_set]
    · rw [scanSymbols, if_pos (by simpa using hsa)]

theorem get_symbol_snd_length (symbols : List Symbol) (used : List Bool)
    (address : Nat) (name : Option ByteStr) :
    (File.get_symbol symbols used address name).2.length = used.length := by
  rcases h : binarySearchByAddress symbols address with _ | i
  · simp [File.get_symbol, h]
  · rcases hscan : scanSymbols address name (rewind symbols address i)
        (symbols.drop (rewind symbols address i)) used false with ⟨u', fnd⟩
    have hlen := scanSymbols_fst_length address name (rewind symbols address i)
      (symbols.drop (rewind symbols address i)) used false
    rw [hscan] at hlen
    cases fnd <;> simp [File.get_symbol, h, hscan] <;> exact hlen

theorem stampFunction_snd_length (symbols : List Symbol) (used : List Bool)
    (fn : Function) :
    (stampFunction symbols used fn).2.length = used.length := by
  rcases hl : fn.low_pc with _ | a
  · simp [stampFunction, hl]
  · have hlen := get_symbol_snd_length symbols used a
      (optOr fn.linkage_name fn.name)
    rcases h : File.get_symbol symbols used a (optOr fn.linkage_name fn.name)
      with ⟨os, u2⟩
    rw [h] at hlen
    cases os <;> simp [stampFunction, hl, h] <;> exact hlen

theorem stampVariable_snd_length (symbols : List Symbol) (used : List Bool)
    (v : Variable) :
    (stampVariable symbols used v).2.length = used.length := by
  rcases hl : v.address with _ | a
  · simp [stampVariable, hl]
  · have hlen := get_symbol_snd_length symbols used a
      (optOr v.linkage_name v.name)
    rcases h : File.get_symbol symbols used a (optOr v.linkage_name v.name)
      with ⟨os, u2⟩
    rw [h] at hlen
    cases os <;> simp [stampVariable, hl, h] <;> exact hlen

theorem stampFunctions_snd_length (symbols : List Symbol) :
    ∀ (fns : List (Nat × Function)) (used : List Bool),
      (stampFunctions symbols fns used).2.length = used.length := by
  intro fns
  induction fns with
  | nil => intro used; simp [stampFunctions]
  | cons kv rest ih =>
    intro used
    rcases h1 : stampFunction symbols used kv.2 with ⟨fn', used'⟩
    rcases h2 : stampFunctions symbols rest used' with ⟨rest', used''⟩
    have e1 := stampFunction_snd_length symbols used kv.2
    rw [h1] at e1
    have e2 := ih used'
    rw [h2] at e2
    rw [stampFunctions, h1]
    dsimp only
    rw [h2]
    exact e2.trans e1

theorem stampVariables_snd_length (symbols : List Symbol) :
    ∀ (vs : List (Nat × Variable)) (used : List Bool),
      (stampVariables symbols vs used).2.length = used.length := by
  intro vs
  induction vs with
  | nil => intro used; simp [stampVariables]
  | cons kv rest ih =>
    intro used
    rcases h1 : stampVariable symbols used kv.2 with ⟨v', used'⟩
    rcases h2 : stampVariables symbols rest used' with ⟨rest', used''⟩
    have e1 := stampVariable_snd_length symbols used kv.2
    rw [h1] at e1
    have e2 := ih used'
    rw [h2] at e2
    rw [stampVariables, h1]
    dsimp only
    rw [h2]
    exact e2.trans e1

theorem processUnit_snd_length (symbols : List Symbol) (u : Unit)
    (used : List Bool) :
    (processUnit symbols u used).2.length = used.length := by
  rcases h1 : stampFunctions symbols u.functions used with ⟨fns, used1⟩
  rcases h2 : stampVariables symbols u.vars used1 with ⟨vars, used2⟩
  have e1 := stampFunctions_snd_length symbols u.functions used
  rw [h1] at e1
  have e2 := stampVariables_snd_length symbols u.vars used1
  rw [h2] at e2
  rw [processUnit, h1]
  dsimp only
  rw [h2]
  exact e2.trans e1

theorem processUnits_snd_length (symbols : List Symbol) :
    ∀ (units : List Unit) (used : List Bool),
      (processUnits symbols units used).2.length = used.length := by
  intro units
  induction units with
  | nil => intro used; simp [processUnits]
  | cons u rest ih =>
    intro used
    rcases h1 : processUnit symbols u used with ⟨u', used'⟩
    rcases h2 : processUnits symbols rest used' with ⟨rest', used''⟩
    have e1 := processUnit_snd_length symbols u used
    rw [h1] at e1
    have e2 := ih used'
    rw [h2] at e2
    rw [processUnits, h1]
    dsimp only
    rw [h2]
    exact e2.trans e1

theorem processUnits_fst_length (symbols : List Symbol) :
    ∀ (units : List Unit) (used : List Bool),
      (processUnits symbols units used).1.length = units.length := by
  intro units
  induction units with
  | nil => intro used; simp [processUnits]
  | cons u rest ih =>
    intro used
    rcases h1 : processUnit symbols u used with ⟨u', used'⟩
    rcases h2 : processUnits symbols rest used' with ⟨rest', used''⟩
    have e2 := ih used'
    rw [h2] at e2
    rw [processUnits, h1]
    dsimp only
    rw [h2]
    simpa using e2

theorem normalizeUsed_length (f : File) :
    (normalizeUsed f).length = (sortSymbols f.symbols).length := by
  rw [normalizeUsed, processUnits_snd_length, List.length_replicate]

theorem foldl_synthStep_char :
    ∀ (entries : List (Nat × (Symbol × Bool))) (u : Unit),
      (entries.foldl synthStep u).name = u.name ∧
      (entries.foldl synthStep u).types = u.types ∧
      (entries.foldl synthStep u).ranges =
        u.ranges ++ entries.filterMap synthRangeOf ∧
      (entries.foldl synthStep u).functions =
        u.functions ++ entries.filterMap synthFnOf ∧
      (entries.foldl synthStep u).vars =
        u.vars ++ entries.filterMap synthVarOf := by
  intro entries
  induction entries with
  | nil => intro u; simp
  | cons e rest ih =>
    intro u
    rw [List.foldl_cons]
    obtain ⟨hn, ht, hr, hf, hv⟩ := ih (synthStep u e)
    rcases e with ⟨i, s, b⟩
    cases b
    · cases hty : s.ty
      · refine ⟨?_, ?_, ?_, ?_, ?_⟩
        · rw [hn]; simp [synthStep, hty]
        · rw [ht]; simp [synthStep, hty]
        · rw [hr]; simp [synthStep, hty, synthRangeOf, List.filterMap_cons]
        · rw [hf]; simp [synthStep, hty, synthFnOf, List.filterMap_cons]
        · rw [hv]; simp [synthStep, hty, synthVarOf, List.filterMap_cons]
      · refine ⟨?_, ?_, ?_, ?_, ?_⟩
        · rw [hn]; simp [synthStep, hty]
        · rw [ht]; simp [synthStep, hty]
        · rw [hr]; simp [synthStep, hty, synthRangeOf, List.filterMap_cons]
        · rw [hf]; simp [synthStep, hty, synthFnOf, List.filterMap_cons]
        · rw [hv]; simp [synthStep, hty, synthVarOf, List.filterMap_cons]
    · refine ⟨?_, ?_, ?_, ?_, ?_⟩
      · rw [hn]; simp [synthStep]
      · rw [ht]; simp [synthStep]
      · rw [hr]; simp [synthStep, synthRangeOf, List.filterMap_cons]
      · rw [hf]; simp [synthStep, synthFnOf, List.filterMap_cons]
      · rw [hv]; simp [synthStep, synthVarOf, List.filterMap_cons]

theorem filterMap_enumFrom_key_lt {β : Type} (g : Nat × (Symbol × Bool) → Option β)
    (key : β → Nat) (hkey : ∀ i x y, g (i, x) = some y → key y = i) :
    ∀ (l : List (Symbol × Bool)) (n i : Nat), i < n →
      ((List.enumFrom n l).filterMap g).filter
        (fun y => key y == i) = [] := by
  intro l
  induction l with
  | nil => intro n i h; simp
  | cons x xs ih =>
    intro n i h
    rw [List.enumFrom_cons, List.filterMap_cons]
    rcases hg : g (n, x) with _ | y
    · exact ih (n + 1) i (by omega)
    · dsimp only
      rw [List.filter_cons]
      have hky : (key y == i) = false := by
        have hk := hkey n x y hg
        simp only [beq_eq_false_iff_ne, ne_eq, hk]
        omega
      rw [hky]
      simp only [Bool.false_eq_true, if_false]
      exact ih (n + 1) i (by omega)

theorem filterMap_enumFrom_key_ge {β : Type} (g : Nat × (Symbol × Bool) → Option β)
    (key : β → Nat) (hkey : ∀ i x y, g (i, x) = some y → key y = i) :
    ∀ (l : List (Symbol × Bool)) (n i : Nat), n + l.length ≤ i →
      ((List.enumFrom n l).filterMap g).filter
        (fun y => key y == i) = [] := by
  intro l
  induction l with
  | nil => intro n i h; simp
  | cons x xs ih =>
    intro n i h
    rw [List.enumFrom_cons, List.filterMap_cons]
    rcases hg : g (n, x) with _ | y
    · refine ih (n + 1) i ?_
      simp only [List.length_cons] at h
      omega
    · dsimp only
      rw [List.filter_cons]
      have hky : (key y == i) = false := by
        have hk := hkey n x y hg
        simp only [beq_eq_false_iff_ne, ne_eq, hk]
        simp only [List.length_cons] at h
        omega
      rw [hky]
      simp only [Bool.false_eq_true, if_false]
      refine ih (n + 1) i ?_
      simp only [List.length_cons] at h
      omega

theorem filterMap_enumFrom_key_eq {β : Type} (g : Nat × (Symbol × Bool) → Option β)
    (key : β → Nat) (hkey : ∀ i x y, g (i, x) = some y → key y = i) :
    ∀ (l : List (Symbol × Bool)) (n i : Nat), n ≤ i → i - n < l.length →
      ((List.enumFrom n l).filterMap g).filter
        (fun y => key y == i) =
      (match g (i, l.getD (i - n) default) with
       | some y => [y]
       | none => []) := by
  intro l
  induction l with
  | nil => intro n i h1 h2; simp at h2
  | cons x xs ih =>
    intro n i h1 h2
    rw [List.enumFrom_cons, List.filterMap_cons]
    rcases Nat.eq_or_lt_of_le h1 with heq | hlt
    · subst heq
      rw [Nat.sub_self, List.getD_cons_zero]
      rcases hg : g (n, x) with _ | y
      · exact filterMap_enumFrom_key_lt g key hkey xs (n + 1) n (by omega)
      · dsimp only
        rw [List.filter_cons]
        have hky : (key y == n) = true := by
          have hk := hkey n x y hg
          simp [hk]
        rw [hky]
        simp only [if_true]
        rw [filterMap_enumFrom_key_lt g key hkey xs (n + 1) n (by omega)]
    · have hin : i - n = (i - (n + 1)) + 1 := by omega
      have hlen : i - (n + 1) < xs.length := by
        simp only [List.length_cons] at h2
        omega
      rcases hg : g (n, x) with _ | y
      · rw [ih (n + 1) i (by omega) hlen, hin, List.getD_cons_succ]
      · dsimp only
        rw [List.filter_cons]
        have hky : (key y == i) = false := by
          have hk := hkey n x y hg
          simp only [beq_eq_false_iff_ne, ne_eq, hk]
          omega
        rw [hky]
        simp only [Bool.false_eq_true, if_false]
        rw [ih (n + 1) i (by omega) hlen, hin, List.getD_cons_succ]

theorem enumFrom_getD_mem : ∀ (l : List (Symbol × Bool)) (n j : Nat),
    j < l.length → (n + j, l.getD j default) ∈ List.enumFrom n l := by
  intro l
  induction l with
  | nil => intro n j h; simp at h
  | cons x xs ih =>
    intro n j h
    rw [List.enumFrom_cons]
    cases j with
    | zero => simp
    | succ j =>
      rw [List.getD_cons_succ]
      refine List.mem_cons_of_mem _ ?_
      have heq : n + (j + 1) = (n + 1) + j := by omega
      rw [heq]
      exact ih (n + 1) j (by simpa using h)

theorem getD_zip : ∀ (a : List Symbol) (b : List Bool) (i : Nat),
    i < a.length → i < b.length →
    (a.zip b).getD i default = (a.getD i default, b.getD i default) := by
  intro a
  induction a with
  | nil => intro b i h1 _; simp at h1
  | cons x xs ih =>
    intro b i h1 h2
    cases b with
    | nil => simp at h2
    | cons y ys =>
      cases i with
      | zero => simp [List.zip_cons_cons]
      | succ i =>
        rw [List.zip_cons_cons, List.getD_cons_succ, List.getD_cons_succ,
          List.getD_cons_succ]
        exact ih ys i (by simpa using h1) (by simpa using h2)

theorem enum_eq_enumFrom (l : List (Symbol × Bool)) :
    l.enum = List.enumFrom 0 l := rfl

theorem buildSynth_char (symbols : List Symbol) (used : List Bool) :
    (buildSynth symbols used).name = some symtabName ∧
    (buildSynth symbols used).types = [] ∧
    (buildSynth symbols used).ranges =
      sortRanges ((List.enumFrom 0 (symbols.zip used)).filterMap synthRangeOf) ∧
    (buildSynth symbols used).functions =
      (List.enumFrom 0 (symbols.zip used)).filterMap synthFnOf ∧
    (buildSynth symbols used).vars =
      (List.enumFrom 0 (symbols.zip used)).filterMap synthVarOf := by
  obtain ⟨hn, ht, hr, hf, hv⟩ := foldl_synthStep_char
    (List.enumFrom 0 (symbols.zip used))
    { name := some symtabName, ranges := [], functions := [], vars := [],
      types := [] }
  rw [buildSynth]
  dsimp only
  rw [enum_eq_enumFrom]
  refine ⟨?_, ?_, ?_, ?_, ?_⟩
  · rw [hn]
  · rw [ht]
  · rw [hr]; simp
  · rw [hf]; simp
  · rw [hv]; simp

theorem hkeyFn : ∀ (i : Nat) (x : Symbol × Bool) (y : Nat × Function),
    synthFnOf (i, x) = some y → y.1 = i := by
  intro i x y hg
  rw [synthFnOf] at hg
  split at hg
  · cases hg; rfl
  · cases hg

theorem hkeyVar : ∀ (i : Nat) (x : Symbol × Bool) (y : Nat × Variable),
    synthVarOf (i, x) = some y → y.1 = i := by
  intro i x y hg
  rw [synthVarOf] at hg
  split at hg
  · cases hg; rfl
  · cases hg

theorem normalize_units_eq (f : File) :
    (File.normalize f).units =
      (processUnits (sortSymbols f.symbols) f.units
        (List.replicate (sortSymbols f.symbols).length false)).1 ++
      [synthUnit f] := by
  rw [File.normalize]
  rcases h : processUnits (sortSymbols f.symbols) f.units
      (List.replicate (sortSymbols f.symbols).length false) with ⟨units', used1⟩
  dsimp only
  rw [synthUnit, normalizeUsed, h]

theorem normalize_fields_eq (f : File) :
    (File.normalize f).path = f.path ∧ (File.normalize f).code = f.code ∧
    (File.normalize f).sections = f.sections ∧
    (File.normalize f).symbols = sortSymbols f.symbols := by
  rw [File.normalize]
  rcases h : processUnits (sortSymbols f.symbols) f.units
      (List.replicate (sortSymbols f.symbols).length false) with ⟨units', used1⟩
  dsimp only
  exact ⟨rfl, rfl, rfl, rfl⟩

/-- C5: every symbol left unused after entity processing yields exactly one
synthesized entity in the `<symtab>` unit, keyed by the symbol's index: a
Function symbol gives a Function with `low_pc = address`,
`high_pc = address + size` and both name fields equal to the symbol's name; a
Variable symbol gives the analogous Variable; the symbol's
`[address, address + size)` range is in the unit's range list, which is
sorted. -/
theorem normalize_synthesizes_headless (f : File) (i : Nat)
    (hi : i < (sortSymbols f.symbols).length)
    (hu : (normalizeUsed f).getD i true = false) :
    (((sortSymbols f.symbols).getD i default).ty = SymbolType.Function →
      (synthUnit f).functions.filter (fun kv => kv.1 == i) =
        [(i, mkSynthFunction ((sortSymbols f.symbols).getD i default))]) ∧
    (((sortSymbols f.symbols).getD i default).ty = SymbolType.Variable →
      (synthUnit f).vars.filter (fun kv => kv.1 == i) =
        [(i, mkSynthVariable ((sortSymbols f.symbols).getD i default))]) ∧
    symbolRange ((sortSymbols f.symbols).getD i default) ∈
      (synthUnit f).ranges ∧
    List.Sorted rangeLE (synthUnit f).ranges := by
  have hlen := normalizeUsed_length f
  have hul : i < (normalizeUsed f).length := by omega
  have hziplen : i < ((sortSymbols f.symbols).zip (normalizeUsed f)).length := by
    rw [List.length_zip]
    omega
  have hufalse : (normalizeUsed f).getD i default = false := by
    rw [List.getD_eq_getElem _ _ hul] at hu ⊢
    exact hu
  have hgdzip : ((sortSymbols f.symbols).zip (normalizeUsed f)).getD i default =
      ((sortSymbols f.symbols).getD i default, false) := by
    rw [getD_zip _ _ i hi hul, hufalse]
  obtain ⟨hn, ht, hr, hf, hv⟩ :=
    buildSynth_char (sortSymbols f.symbols) (normalizeUsed f)
  refine ⟨?_, ?_, ?_, ?_⟩
  · intro hty
    rw [synthUnit, hf]
    rw [filterMap_enumFrom_key_eq synthFnOf Prod.fst hkeyFn
      ((sortSymbols f.symbols).zip (normalizeUsed f)) 0 i (Nat.zero_le _)
      (by rw [List.length_zip]; omega)]
    rw [Nat.sub_zero, hgdzip, synthFnOf]
    rw [if_pos ⟨rfl, hty⟩]
  · intro hty
    rw [synthUnit, hv]
    rw [filterMap_enumFrom_key_eq synthVarOf Prod.fst hkeyVar
      ((sortSymbols f.symbols).zip (normalizeUsed f)) 0 i (Nat.zero_le _)
      (by rw [List.length_zip]; omega)]
    rw [Nat.sub_zero, hgdzip, synthVarOf]
    rw [if_pos ⟨rfl, hty⟩]
  · rw [synthUnit, hr, sortRanges, (List.perm_insertionSort rangeLE _).mem_iff,
      List.mem_filterMap]
    refine ⟨(i, ((sortSymbols f.symbols).getD i default, false)), ?_, ?_⟩
    · have := enumFrom_getD_mem ((sortSymbols f.symbols).zip (normalizeUsed f))
        0 i hziplen
      rw [Nat.zero_add, hgdzip] at this
      exact this
    · simp [synthRangeOf]
  · rw [synthUnit, hr, sortRanges]
    exact List.sorted_insertionSort rangeLE _

/-- C5 witness: the spec's example — one headless Function symbol at 0x1000
with size 0x10 yields exactly one synthesized Function with
`low_pc = 0x1000`, `high_pc = 0x1010`, and the range `[0x1000, 0x1010)`. -/
theorem normalize_synthesizes_headless_witness :
    (synthUnit headlessFile).functions.filter (fun kv => kv.1 == 0) =
      [(0, ⟨some [104], some [104], some 4096, some 4112, some 16, none⟩)] ∧
    (⟨4096, 4112⟩ : Range) ∈ (synthUnit headlessFile).ranges := by
  have h := normalize_synthesizes_headless headlessFile 0 (by decide) (by decide)
  constructor
  · rw [h.1 (by decide)]
    decide
  · have hm := h.2.2.1
    have he : symbolRange ((sortSymbols headlessFile.symbols).getD 0 default) =
        (⟨4096, 4112⟩ : Range) := by decide
    rw [he] at hm
    exact hm

/-- C4 counterexample: in `matchedFile` the only symbol ("foo" at 0x1000)
matches the function's name at its address, so lookup returns nothing, the
symbol's name is attached to no entity, and — being marked used — it is not
synthesized either: it is accounted for by "neither". -/
theorem normalize_symbol_neither_attached_nor_synthesized :
    matchedFile.symbols = [fooSym] ∧
    (∀ u ∈ (File.normalize matchedFile).units,
      (∀ kv ∈ u.functions, kv.2.symbol_name ≠ fooSym.name) ∧
      (∀ kv ∈ u.vars, kv.2.symbol_name ≠ fooSym.name)) ∧
    (synthUnit matchedFile).functions = [] ∧
    (synthUnit matchedFile).vars = [] := by
  exact ⟨rfl, by decide, by decide, by decide⟩

/-- C4 amended: after normalize, a symbol is represented by a synthesized
entity in the `<symtab>` unit exactly when it was left unmarked by entity
processing, and then by exactly one entity, keyed by its index; symbols
marked used are never synthesized, but a used symbol's name is not
necessarily attached to any entity's `symbol_name` (and may be attached to
several). -/
theorem normalize_synthesized_iff_unused (f : File) (i : Nat) :
    (synthUnit f).functions.countP (fun kv => kv.1 == i) +
      (synthUnit f).vars.countP (fun kv => kv.1 == i) =
      (if i < (sortSymbols f.symbols).length ∧
          (normalizeUsed f).getD i true = false then 1 else 0) := by
  have hlen := normalizeUsed_length f
  obtain ⟨hn, ht, hr, hf, hv⟩ :=
    buildSynth_char (sortSymbols f.symbols) (normalizeUsed f)
  rw [List.countP_eq_length_filter, List.countP_eq_length_filter,
    synthUnit, hf, hv]
  by_cases hi : i < (sortSymbols f.symbols).length
  · have hul : i < (normalizeUsed f).length := by omega
    by_cases hu : (normalizeUsed f).getD i true = false
    · have hufalse : (normalizeUsed f).getD i default = false := by
        rw [List.getD_eq_getElem _ _ hul] at hu ⊢
        exact hu
      have hgdzip :
          ((sortSymbols f.symbols).zip (normalizeUsed f)).getD i default =
          ((sortSymbols f.symbols).getD i default, false) := by
        rw [getD_zip _ _ i hi hul, hufalse]
      rw [if_pos ⟨hi, hu⟩]
      rw [filterMap_enumFrom_key_eq synthFnOf Prod.fst hkeyFn
        ((sortSymbols f.symbols).zip (normalizeUsed f)) 0 i (Nat.zero_le _)
        (by rw [List.length_zip]; omega)]
      rw [filterMap_enumFrom_key_eq synthVarOf Prod.fst hkeyVar
        ((sortSymbols f.symbols).zip (normalizeUsed f)) 0 i (Nat.zero_le _)
        (by rw [List.length_zip]; omega)]
      rw [Nat.sub_zero, hgdzip, synthFnOf, synthVarOf]
      cases hty : ((sortSymbols f.symbols).getD i default).ty
      · rw [if_neg (by simp), if_pos ⟨rfl, rfl⟩]
        rfl
      · rw [if_pos ⟨rfl, rfl⟩, if_neg (by simp)]
        rfl
    · have hutrue : (normalizeUsed f).getD i default = true := by
        rw [List.getD_eq_getElem _ _ hul] at hu ⊢
        cases h : (normalizeUsed f)[i]
        · exact absurd h hu
        · rfl
      have hgdzip :
          ((sortSymbols f.symbols).zip (normalizeUsed f)).getD i default =
          ((sortSymbols f.symbols).getD i default, true) := by
        rw [getD_zip _ _ i hi hul, hutrue]
      rw [if_neg (by tauto)]
      rw [filterMap_enumFrom_key_eq synthFnOf Prod.fst hkeyFn
        ((sortSymbols f.symbols).zip (normalizeUsed f)) 0 i (Nat.zero_le _)
        (by rw [List.length_zip]; omega)]
      rw [filterMap_enumFrom_key_eq synthVarOf Prod.fst hkeyVar
        ((sortSymbols f.symbols).zip (normalizeUsed f)) 0 i (Nat.zero_le _)
        (by rw [List.length_zip]; omega)]
      rw [Nat.sub_zero, hgdzip, synthFnOf, synthVarOf]
      rw [if_neg (by simp), if_neg (by simp)]
      rfl
  · rw [if_neg (by tauto)]
    have hge : 0 + ((sortSymbols f.symbols).zip (normalizeUsed f)).length ≤
        i := by
      rw [List.length_zip]
      omega
    rw [filterMap_enumFrom_key_ge synthFnOf Prod.fst hkeyFn
      ((sortSymbols f.symbols).zip (normalizeUsed f)) 0 i hge]
    rw [filterMap_enumFrom_key_ge synthVarOf Prod.fst hkeyVar
      ((sortSymbols f.symbols).zip (normalizeUsed f)) 0 i hge]
    rfl

/-- C9: normalize unconditionally appends exactly one unit, named
`<symtab>`, as the last element of the unit list; when no symbol is left
unused (in particular when the symbol table is empty) that unit has empty
ranges, functions and variables. -/
theorem normalize_appends_symtab_unit (f : File) :
    (File.normalize f).units.length = f.units.length + 1 ∧
    (File.normalize f).units.getLast? = some (synthUnit f) ∧
    (synthUnit f).name = some symtabName ∧
    ((∀ b ∈ normalizeUsed f, b = true) →
      (synthUnit f).ranges = [] ∧ (synthUnit f).functions = [] ∧
        (synthUnit f).vars = []) := by
  obtain ⟨hn, ht, hr, hf, hv⟩ :=
    buildSynth_char (sortSymbols f.symbols) (normalizeUsed f)
  refine ⟨?_, ?_, hn, ?_⟩
  · rw [normalize_units_eq, List.length_append, processUnits_fst_length]
    rfl
  · rw [normalize_units_eq, List.getLast?_concat]
  · intro hall
    have hnone : ∀ e ∈ List.enumFrom 0
        ((sortSymbols f.symbols).zip (normalizeUsed f)), e.2.2 = true := by
      intro e he
      rcases e with ⟨j, x⟩
      obtain ⟨_, _, hx⟩ := List.mem_enumFrom he
      have hxmem : x ∈ (sortSymbols f.symbols).zip (normalizeUsed f) := by
        rw [hx]
        exact List.getElem_mem _
      rcases x with ⟨s, b⟩
      exact hall b (List.of_mem_zip hxmem).2
    refine ⟨?_, ?_, ?_⟩
    · rw [synthUnit, hr]
      have : (List.enumFrom 0
          ((sortSymbols f.symbols).zip (normalizeUsed f))).filterMap
            synthRangeOf = [] := by
        rw [List.filterMap_eq_nil_iff]
        intro e he
        rw [synthRangeOf, if_neg]
        simp [hnone e he]
      rw [this, sortRanges]
      rfl
    · rw [synthUnit, hf]
      rw [List.filterMap_eq_nil_iff]
      intro e he
      rw [synthFnOf, if_neg]
      simp [hnone e he]
    · rw [synthUnit, hv]
      rw [List.filterMap_eq_nil_iff]
      intro e he
      rw [synthVarOf, if_neg]
      simp [hnone e he]

/-- C9 witness: on a file with an empty symbol table, exactly one unit is
appended and it is entirely empty. -/
theorem normalize_appends_symtab_unit_witness :
    (File.normalize emptyFile).units.length = 1 ∧
    (synthUnit emptyFile).name = some symtabName ∧
    (synthUnit emptyFile).ranges = [] ∧
    (synthUnit emptyFile).functions = [] ∧
    (synthUnit emptyFile).vars = [] := by
  have h := normalize_appends_symtab_unit emptyFile
  have h4 := h.2.2.2 (by decide)
  exact ⟨by rw [h.1]; rfl, h.2.2.1, h4.1, h4.2.1, h4.2.2⟩

theorem stampFunction_clear (symbols : List Symbol) (used : List Bool)
    (fn : Function) :
    ((stampFunction symbols used fn).1).clearSym = fn.clearSym := by
  rcases hl : fn.low_pc with _ | a
  · rw [stampFunction, hl]
  · rw [stampFunction, hl]
    rcases h : File.get_symbol symbols used a (optOr fn.linkage_name fn.name)
      with ⟨os, u2⟩
    cases os <;> simp [h, hl, Function.clearSym]

theorem stampVariable_clear (symbols : List Symbol) (used : List Bool)
    (v : Variable) :
    ((stampVariable symbols used v).1).clearSym = v.clearSym := by
  rcases hl : v.address with _ | a
  · rw [stampVariable, hl]
  · rw [stampVariable, hl]
    rcases h : File.get_symbol symbols used a (optOr v.linkage_name v.name)
      with ⟨os, u2⟩
    cases os <;> simp [h, hl, Variable.clearSym]

theorem stampFunctions_clear (symbols : List Symbol) :
    ∀ (fns : List (Nat × Function)) (used : List Bool),
      (stampFunctions symbols fns used).1.map
        (fun kv => (kv.1, kv.2.clearSym)) =
      fns.map fun kv => (kv.1, kv.2.clearSym) := by
  intro fns
  induction fns with
  | nil => intro used; simp [stampFunctions]
  | cons kv rest ih =>
    intro used
    rcases h1 : stampFunction symbols used kv.2 with ⟨fn', used'⟩
    rcases h2 : stampFunctions symbols rest used' with ⟨rest', used''⟩
    rw [stampFunctions, h1]
    dsimp only
    rw [h2]
    dsimp only
    have hc := stampFunction_clear symbols used kv.2
    rw [h1] at hc
    dsimp only at hc
    have hr := ih used'
    rw [h2] at hr
    dsimp only at hr
    rw [List.map_cons, List.map_cons]
    dsimp only
    rw [hc, hr]

theorem stampVariables_clear (symbols : List Symbol) :
    ∀ (vs : List (Nat × Variable)) (used : List Bool),
      (stampVariables symbols vs used).1.map
        (fun kv => (kv.1, kv.2.clearSym)) =
      vs.map fun kv => (kv.1, kv.2.clearSym) := by
  intro vs
  induction vs with
  | nil => intro used; simp [stampVariables]
  | cons kv rest ih =>
    intro used
    rcases h1 : stampVariable symbols used kv.2 with ⟨v', used'⟩
    rcases h2 : stampVariables symbols rest used' with ⟨rest', used''⟩
    rw [stampVariables, h1]
    dsimp only
    rw [h2]
    dsimp only
    have hc := stampVariable_clear symbols used kv.2
    rw [h1] at hc
    dsimp only at hc
    have hr := ih used'
    rw [h2] at hr
    dsimp only at hr
    rw [List.map_cons, List.map_cons]
    dsimp only
    rw [hc, hr]

theorem processUnit_clear (symbols : List Symbol) (u : Unit)
    (used : List Bool) :
    ((processUnit symbols u used).1).clearSym = u.clearSym := by
  rcases h1 : stampFunctions symbols u.functions used with ⟨fns, used1⟩
  rcases h2 : stampVariables symbols u.vars used1 with ⟨vars, used2⟩
  rw [processUnit, h1]
  dsimp only
  rw [h2]
  dsimp only
  have hf := stampFunctions_clear symbols u.functions used
  rw [h1] at hf
  dsimp only at hf
  have hv := stampVariables_clear symbols u.vars used1
  rw [h2] at hv
  dsimp only at hv
  rw [Unit.clearSym, Unit.clearSym]
  simp [hf, hv]

theorem processUnits_clear (symbols : List Symbol) :
    ∀ (units : List Unit) (used : List Bool),
      (processUnits symbols units used).1.map Unit.clearSym =
        units.map Unit.clearSym := by
  intro units
  induction units with
  | nil => intro used; simp [processUnits]
  | cons u rest ih =>
    intro used
    rcases h1 : processUnit symbols u used with ⟨u', used'⟩
    rcases h2 : processUnits symbols rest used' with ⟨rest', used''⟩
    rw [processUnits, h1]
    dsimp only
    rw [h2]
    dsimp only
    have hc := processUnit_clear symbols u used
    rw [h1] at hc
    dsimp only at hc
    have hr := ih used'
    rw [h2] at hr
    dsimp only at hr
    rw [List.map_cons, List.map_cons, hc, hr]

/-- C10: normalize leaves `path`, `code` and `sections` unchanged, removes
no unit (one unit is appended, the prefix is the old list) and no symbol
(the symbol list is a permutation of the old one, i.e. only reordered), and
changes pre-existing units only in the `symbol_name` fields of their
functions and variables: erasing those fields makes the unit prefix equal to
the original units. -/
theorem normalize_frame (f : File) :
    (File.normalize f).path = f.path ∧
    (File.normalize f).code = f.code ∧
    (File.normalize f).sections = f.sections ∧
    (File.normalize f).symbols.Perm f.symbols ∧
    (File.normalize f).units.length = f.units.length + 1 ∧
    ((File.normalize f).units.take f.units.length).map Unit.clearSym =
      f.units.map Unit.clearSym := by
  obtain ⟨hp, hc, hsec, hsym⟩ := normalize_fields_eq f
  refine ⟨hp, hc, hsec, ?_, ?_, ?_⟩
  · rw [hsym, sortSymbols]
    exact List.perm_insertionSort _ _
  · rw [normalize_units_eq, List.length_append, processUnits_fst_length]
    rfl
  · rw [normalize_units_eq]
    have hlen : (processUnits (sortSymbols f.symbols) f.units
        (List.replicate (sortSymbols f.symbols).length false)).1.length =
        f.units.length := processUnits_fst_length _ _ _
    rw [← hlen, List.take_left]
    exact processUnits_clear _ _ _

end Ddbug
